import Mathlib

/-!
Verification of `tf.py`, a batch video-to-MP4 transcoding tool.

The tool is sequential orchestration around two external programs: a
transcoder (ffmpeg) and a metadata editor (exiftool).  We embed:

* Python strings (file paths, metadata keys and values) as `List Char`;
* the file system as a structure `FS` giving, for each path, whether a
  file exists there and what its metadata mapping is;
* each externally visible action of the tool (logging, metadata reads,
  file removals, transcoder invocations, tag writes) as an `Event`, so
  that every function of the tool becomes a pure function
  `FS → FS × List Event` returning the new file-system state and the
  trace of actions in program order.

The effects of the two external tools are modelled at the level the
program relies on: the transcoder, when actually invoked, produces the
output file; the metadata editor's tag write leaves a `_original`
backup copy next to the target, which the tool then removes.
-/

/-- Python strings are embedded as lists of characters. -/
abbrev Str := List Char

/-- Python's substring test `pat in hay` (`'Date' in key` at line 40 of
`tf.py`): `substringOf pat hay` is true iff `pat` occurs contiguously in
`hay`. -/
def substringOf (pat : Str) : Str → Bool
  | [] => List.isPrefixOf pat []
  | c :: cs => List.isPrefixOf pat (c :: cs) || substringOf pat cs

/-- Python's `s.split('.')`: splits a string on every occurrence of `'.'`,
never returning an empty list (a string with no dot yields the singleton
of the whole string). -/
def splitDot : Str → List Str
  | [] => [[]]
  | c :: cs =>
    if c = '.' then [] :: splitDot cs
    else
      match splitDot cs with
      | [] => [[c]]
      | p :: ps => (c :: p) :: ps

/-- Python's `'.'.join(parts)`. -/
def joinDot : List Str → Str
  | [] => []
  | [p] => p
  | p :: q :: ps => p ++ '.' :: joinDot (q :: ps)

/-- Python's `str.upper()`, character by character. -/
def upper (s : Str) : Str := s.map Char.toUpper

/-- Line 26 of `tf.py`:
`output_file = ".".join(input_file.split('.')[:-1]) + '.MP4'`. -/
def output_file_of (input_file : Str) : Str :=
  joinDot (splitDot input_file).dropLast ++ ".MP4".toList

/-- Lines 68–69 of `tf.py`: the fixed allow-list of input extensions. -/
def allowed_extensions : List Str :=
  (["MKV", "AVI", "MPG", "WMV", "MOV", "M4V", "3GP", "MPEG", "MPE", "OGM",
    "FLV", "DIVX", "VOB", "QT"]).map String.toList

/-- Lines 67–70 of `tf.py`:
`return input_file.split('.')[-1].upper() in allowed_extensions`. -/
def supported_input_format (input_file : Str) : Bool :=
  decide (upper ((splitDot input_file).getLastD []) ∈ allowed_extensions)

/-- Line 40 of `tf.py`:
`datetags = {key: metadata[key] for key in metadata if 'Date' in key}`.
Metadata mappings are embedded as association lists. -/
def extract_datetags (metadata : List (Str × Str)) : List (Str × Str) :=
  metadata.filter (fun kv => substringOf "Date".toList kv.1)

/-- The file-system state: which paths currently hold a file, and the
metadata mapping exiftool would report for each path. -/
structure FS where
  files : Str → Bool
  meta : Str → List (Str × Str)

/-- `os.remove(p)`. -/
def FS.remove (fs : FS) (p : Str) : FS :=
  { fs with files := fun q => if q = p then false else fs.files q }

/-- Creation of a file at path `p` (by the external transcoder or the
metadata editor's backup convention). -/
def FS.create (fs : FS) (p : Str) : FS :=
  { fs with files := fun q => if q = p then true else fs.files q }

/-- Severity of a log line. -/
inductive LogLevel where
  | debug
  | info
  | warning
  | error
deriving DecidableEq, Repr

/-- One externally visible action of the tool, in program order. -/
inductive Event where
  /-- A log line at the given severity, about the given path. -/
  | log (lvl : LogLevel) (about : Str)
  /-- `et.get_metadata(path)` (line 39). -/
  | readMetadata (path : Str)
  /-- `os.remove(path)` (lines 45, 49, 63). -/
  | removeFile (path : Str)
  /-- `subprocess.call(ffmpeg_command)` (line 56). -/
  | invokeTranscoder (input output : Str)
  /-- `ExifToolHelper().set_tags(files=path, tags=tags)` (line 58). -/
  | setTags (path : Str) (tags : List (Str × Str))
deriving DecidableEq, Repr

/-- Whether an event is a transcoder invocation. -/
def Event.isTranscode : Event → Bool
  | Event.invokeTranscoder _ _ => true
  | _ => false

/-- Number of transcoder invocations in a trace. -/
def countTranscodes (evs : List Event) : Nat :=
  (evs.filter Event.isTranscode).length

/-- Lines 53–64 of `tf.py`, the tail of `transform_video` after the
existing-output checks ("Transform video now").  When not `dry_run`, the
transcoder is invoked (producing the output file), the date tags are
written onto the output (the metadata editor leaving a
`output_file + '_original'` backup), and the backup is removed if
present.  `evs` is the trace accumulated so far. -/
def transform_video_tail (fs : FS) (input_file output_file : Str)
    (datetags : List (Str × Str)) (dry_run : Bool)
    (evs : List Event) : FS × List Event :=
  if !dry_run then
    let fs1 := fs.create output_file
    let exiftool_renamed_file := output_file ++ "_original".toList
    let fs2 := fs1.create exiftool_renamed_file
    let evs1 := evs ++ [Event.invokeTranscoder input_file output_file,
                        Event.setTags output_file datetags,
                        Event.log .debug exiftool_renamed_file]
    if fs2.files exiftool_renamed_file then
      (fs2.remove exiftool_renamed_file,
       evs1 ++ [Event.removeFile exiftool_renamed_file, Event.log .info output_file])
    else
      (fs2, evs1 ++ [Event.log .info output_file])
  else (fs, evs)

/-- Lines 20–64 of `tf.py`: the per-file lifecycle.  Faithful to the
source's control flow: the initial info log (lines 29–32), the
missing-input check (33–35), the metadata read and date-tag extraction
(37–41), the existing-output branches (42–52: force deletes the output
and falls through to the transcode tail; else erase deletes the input
and returns; else a skip warning and return), then the transcode tail
(53–64).  The ffmpeg command-string construction (lines 26–27, using
`ffmpeg_log_level`) is abstracted into the `invokeTranscoder` event, so
the `log_level` argument is not threaded through the model. -/
def transform_video (fs : FS) (input_file : Str)
    (dry_run force erase : Bool) : FS × List Event :=
  let output_file := output_file_of input_file
  let startEv := Event.log .info input_file
  if !fs.files input_file then
    (fs, [startEv, Event.log .error input_file])
  else
    let datetags := extract_datetags (fs.meta input_file)
    let evs0 := [startEv, Event.readMetadata input_file, Event.log .debug input_file]
    if fs.files output_file then
      if force then
        transform_video_tail (fs.remove output_file) input_file output_file datetags dry_run
          (evs0 ++ [Event.log .info output_file, Event.removeFile output_file])
      else
        if erase then
          (fs.remove input_file,
           evs0 ++ [Event.log .warning input_file, Event.removeFile input_file])
        else
          (fs, evs0 ++ [Event.log .warning output_file])
    else
      transform_video_tail fs input_file output_file datetags dry_run evs0

/-- Lines 73–76 of `tf.py`: dispatch each file of the list through the
extension filter; matching files go through `transform_video`, the rest
are silently skipped. -/
def dispatch_transformation (fs : FS) (input_file_list : List Str)
    (dryrun force erase : Bool) : FS × List Event :=
  match input_file_list with
  | [] => (fs, [])
  | file :: rest =>
    if supported_input_format file then
      let r1 := transform_video fs file dryrun force erase
      let r2 := dispatch_transformation r1.1 rest dryrun force erase
      (r2.1, r1.2 ++ r2.2)
    else
      dispatch_transformation fs rest dryrun force erase

/-- Lines 79–103 of `tf.py`: in recursive mode, require exactly one path
argument (line 89) which must be a directory (line 93); on success, walk
it and dispatch every collected file; otherwise dispatch the argument
list verbatim.  The directory structure is modelled by the oracles
`isdir` (for `os.path.isdir`) and `walk` (for the `os.walk` collection
loop, lines 97–100).  The configuration debug logs (lines 80–85) are
pure logging of the arguments and are not modelled (the Lean name adds a suffix because `main` is reserved); the count error
(line 90) logs about the whole argument list, rendered here as `[]`. -/
def main_tf (fs : FS) (isdir : Str → Bool) (walk : Str → List Str)
    (dryrun force recursive erase : Bool) (input_files : List Str) :
    FS × List Event :=
  if recursive then
    if input_files.length ≠ 1 then
      (fs, [Event.log .error []])
    else
      let root_path := input_files.headD []
      if !isdir root_path then
        (fs, [Event.log .error root_path])
      else
        let r := dispatch_transformation fs (walk root_path) dryrun force erase
        (r.1, Event.log .info root_path :: r.2)
  else
    dispatch_transformation fs input_files dryrun force erase

/-- The spec's reading of "the portion of the name after the last `.`"
(§4.1, §3), stated from the spec's words rather than from line 70 of the
source, for comparison with `supported_input_format`: scan to the last
dot and return what follows it; a name with no dot is its own final
segment (the convention forced by claim C10). -/
def extension_after_last_dot : Str → Str
  | [] => []
  | c :: cs =>
    if '.' ∈ cs then extension_after_last_dot cs
    else if c = '.' then cs else c :: extension_after_last_dot cs

theorem splitDot_ne_nil (s : Str) : splitDot s ≠ [] := by
  cases s with
  | nil => simp [splitDot]
  | cons c cs =>
    rw [splitDot]
    by_cases h : c = '.'
    · simp [h]
    · rw [if_neg h]
      cases hs : splitDot cs <;> simp

theorem splitDot_append_dot (xs ys : Str) :
    splitDot (xs ++ '.' :: ys) = splitDot xs ++ splitDot ys := by
  induction xs with
  | nil => simp [splitDot]
  | cons c cs ih =>
    by_cases h : c = '.'
    · subst h
      rw [List.cons_append, splitDot, if_pos rfl, ih, splitDot, if_pos rfl]
      rfl
    · rw [List.cons_append, splitDot, if_neg h, ih, splitDot, if_neg h]
      rcases hs : splitDot cs with _ | ⟨p, ps⟩
      · exact absurd hs (splitDot_ne_nil cs)
      · rfl

theorem splitDot_no_dot {s : Str} (h : '.' ∉ s) : splitDot s = [s] := by
  induction s with
  | nil => rfl
  | cons c cs ih =>
    rw [List.mem_cons, not_or] at h
    rw [splitDot, if_neg (fun hc => h.1 hc.symm), ih h.2]

theorem joinDot_splitDot (s : Str) : joinDot (splitDot s) = s := by
  induction s with
  | nil => rfl
  | cons c cs ih =>
    rcases hs : splitDot cs with _ | ⟨q, qs⟩
    · exact absurd hs (splitDot_ne_nil cs)
    · have ih' : joinDot (q :: qs) = cs := by rw [← hs]; exact ih
      by_cases h : c = '.'
      · subst h
        rw [splitDot, if_pos rfl, hs, joinDot, ih']
        rfl
      · rw [splitDot, if_neg h, hs]
        cases qs with
        | nil =>
          have hq : q = cs := by simpa [joinDot] using ih'
          show joinDot [c :: q] = c :: cs
          rw [joinDot, hq]
        | cons r rs =>
          show joinDot ((c :: q) :: r :: rs) = c :: cs
          rw [joinDot] at ih' ⊢
          simp [← ih']

theorem splitDot_length_of_mem {s : Str} (h : '.' ∈ s) :
    2 ≤ (splitDot s).length := by
  induction s with
  | nil => cases h
  | cons c cs ih =>
    by_cases hc : c = '.'
    · rw [splitDot, if_pos hc]
      have h1 : 1 ≤ (splitDot cs).length :=
        List.length_pos.mpr (splitDot_ne_nil cs)
      simpa using Nat.succ_le_succ h1
    · have hcs : '.' ∈ cs := by
        rcases List.mem_cons.mp h with h1 | h2
        · exact absurd h1.symm hc
        · exact h2
      rw [splitDot, if_neg hc]
      rcases hs : splitDot cs with _ | ⟨p, ps⟩
      · exact absurd hs (splitDot_ne_nil cs)
      · have h2 := ih hcs
        rw [hs] at h2
        show 2 ≤ ((c :: p) :: ps).length
        simpa using h2

theorem ext_after_no_dot {s : Str} (h : '.' ∉ s) :
    extension_after_last_dot s = s := by
  induction s with
  | nil => rfl
  | cons c cs ih =>
    rw [List.mem_cons, not_or] at h
    rw [extension_after_last_dot, if_neg h.2, if_neg (fun hc => h.1 hc.symm), ih h.2]

theorem getLastD_splitDot (s : Str) :
    (splitDot s).getLastD [] = extension_after_last_dot s := by
  induction s with
  | nil => rfl
  | cons c cs ih =>
    by_cases hm : '.' ∈ cs
    · rcases hs : splitDot cs with _ | ⟨q, qs⟩
      · exact absurd hs (splitDot_ne_nil cs)
      · have hqs : qs ≠ [] := by
          have h2 := splitDot_length_of_mem hm
          rw [hs] at h2
          intro hq
          subst hq
          simp at h2
        by_cases hc : c = '.'
        · subst hc
          rw [splitDot, if_pos rfl, hs, List.getLastD_cons,
              extension_after_last_dot, if_pos hm, ← ih, hs]
        · rw [splitDot, if_neg hc, hs,
              extension_after_last_dot, if_pos hm, ← ih, hs]
          rcases qs with _ | ⟨r, rs⟩
          · exact absurd rfl hqs
          · simp [List.getLastD_cons]
    · have hsd := splitDot_no_dot hm
      by_cases hc : c = '.'
      · subst hc
        rw [splitDot, if_pos rfl, hsd,
            extension_after_last_dot, if_neg hm, if_pos rfl]
        simp [List.getLastD_cons]
      · rw [splitDot, if_neg hc, hsd]
        show ([c :: cs] : List Str).getLastD [] = extension_after_last_dot (c :: cs)
        rw [extension_after_last_dot, if_neg hm, if_neg hc, ext_after_no_dot hm]
        rfl

theorem substringOf_iff (pat s : Str) : substringOf pat s = true ↔ pat <:+: s := by
  induction s with
  | nil =>
    rw [substringOf]
    simp [List.isPrefixOf_iff_prefix]
  | cons c cs ih =>
    rw [substringOf, Bool.or_eq_true, ih, List.isPrefixOf_iff_prefix,
        List.infix_cons_iff]

theorem output_file_append (pre ext : Str) (h : '.' ∉ ext) :
    output_file_of (pre ++ '.' :: ext) = pre ++ ".MP4".toList := by
  rw [output_file_of, splitDot_append_dot, splitDot_no_dot h,
      List.dropLast_concat, joinDot_splitDot]

theorem upper_last_output (s : Str) :
    upper ((splitDot (output_file_of s)).getLastD []) = "MP4".toList := by
  rw [output_file_of,
      show (".MP4".toList : Str) = '.' :: "MP4".toList from rfl,
      splitDot_append_dot, splitDot_no_dot (by decide : '.' ∉ "MP4".toList),
      List.getLastD_concat]
  decide

theorem output_ne_of_supported {input : Str}
    (h : supported_input_format input = true) :
    output_file_of input ≠ input := by
  intro heq
  rw [supported_input_format, decide_eq_true_eq] at h
  rw [← heq, upper_last_output] at h
  exact absurd h (by decide)

theorem append_original_ne (p : Str) : p ++ "_original".toList ≠ p := by
  intro h
  have hl := congrArg List.length h
  rw [List.length_append] at hl
  have h9 : ("_original".toList).length = 9 := rfl
  omega

/-- A sample metadata mapping used by concrete instantiations. -/
def sampleMeta : List (Str × Str) :=
  [("CreateDate".toList, "2020:01:01 00:00:00".toList),
   ("Model".toList, "Cam".toList)]

/-- A concrete file system in which both `a.mov` and its output `a.MP4`
exist. -/
def fsBoth : FS :=
  ⟨fun p => decide (p = "a.mov".toList ∨ p = "a.MP4".toList), fun _ => sampleMeta⟩

/-- A concrete file system with no files. -/
def fsEmpty : FS := ⟨fun _ => false, fun _ => sampleMeta⟩

theorem transform_video_tail_trace (fs : FS) (i o : Str) (dt : List (Str × Str))
    (dr : Bool) (evs : List Event) :
    ∃ s, (transform_video_tail fs i o dt dr evs).2 = evs ++ s := by
  cases dr with
  | true => exact ⟨[], by simp [transform_video_tail]⟩
  | false =>
    refine ⟨[Event.invokeTranscoder i o, Event.setTags o dt,
             Event.log .debug (o ++ "_original".toList),
             Event.removeFile (o ++ "_original".toList), Event.log .info o], ?_⟩
    simp [transform_video_tail, FS.create]

/-- C4: the Extension Filter returns true iff the portion of the name
after the last `.`, compared case-insensitively, is in the allow-list
(a name with no dot being its own final segment, as in Python's
`split`); it is a pure function, and a file failing it is silently
excluded from dispatch, which proceeds identically without it. -/
theorem supported_iff_allowlisted (name : Str) :
    (supported_input_format name = true ↔
      upper (extension_after_last_dot name) ∈ allowed_extensions) ∧
    (∀ (fs : FS) (rest : List Str) (dryrun force erase : Bool),
      supported_input_format name = false →
      dispatch_transformation fs (name :: rest) dryrun force erase =
        dispatch_transformation fs rest dryrun force erase) := by
  constructor
  · rw [supported_input_format, getLastD_splitDot, decide_eq_true_eq]
  · intro fs rest d f e h
    simp [dispatch_transformation, h]

/-- C4 witness: `clip.txt` fails the filter and is skipped by dispatch. -/
theorem supported_iff_allowlisted_witness :
    supported_input_format "clip.txt".toList = false ∧
    dispatch_transformation fsEmpty ["clip.txt".toList] false false false =
      dispatch_transformation fsEmpty [] false false false :=
  ⟨by decide,
   (supported_iff_allowlisted "clip.txt".toList).2 fsEmpty [] false false false (by decide)⟩

/-- C5: the output file reference replaces only the final extension
segment (the part after the last `.`) with the uppercase `MP4`, leaving
every earlier segment intact; in particular `a.b.MOV ↦ a.b.MP4`. -/
theorem output_replaces_final_extension (pre ext : Str) (h : '.' ∉ ext) :
    output_file_of (pre ++ '.' :: ext) = pre ++ ".MP4".toList ∧
    output_file_of "a.b.MOV".toList = "a.b.MP4".toList :=
  ⟨output_file_append pre ext h, by decide⟩

/-- C5 witness: instantiated at `pre = "a.b"`, `ext = "MOV"`. -/
theorem output_replaces_final_extension_witness :
    ('.' ∉ "MOV".toList) ∧
    output_file_of ("a.b".toList ++ '.' :: "MOV".toList) = "a.b".toList ++ ".MP4".toList :=
  ⟨by decide,
   (output_replaces_final_extension "a.b".toList "MOV".toList (by decide)).1⟩

/-- C8: the Date Tag Set extracted from a metadata mapping contains
exactly the entries whose key contains the substring `Date`, with values
carried over verbatim; e.g. the keys `CreateDate`, `ModifyDate`, `Model`
yield only the first two entries. -/
theorem datetags_exactly_date_keys (m : List (Str × Str)) (k v : Str) :
    ((k, v) ∈ extract_datetags m ↔ (k, v) ∈ m ∧ "Date".toList <:+: k) ∧
    extract_datetags
        [("CreateDate".toList, "a".toList), ("ModifyDate".toList, "b".toList),
         ("Model".toList, "c".toList)] =
      [("CreateDate".toList, "a".toList), ("ModifyDate".toList, "b".toList)] := by
  constructor
  · rw [extract_datetags, List.mem_filter]
    simp [substringOf_iff]
  · decide

/-- C10: a dot-free name whose uppercasing is in the allow-list (such as
a file literally named `mov`) is accepted by the filter, and its output
file reference is the bare string `.MP4`. -/
theorem dotless_name_accepted (name : Str) (h : '.' ∉ name)
    (h2 : upper name ∈ allowed_extensions) :
    supported_input_format name = true ∧ output_file_of name = ".MP4".toList := by
  constructor
  · rw [supported_input_format, splitDot_no_dot h]
    exact decide_eq_true h2
  · rw [output_file_of, splitDot_no_dot h]
    rfl

/-- C10 witness: the file literally named `mov`. -/
theorem dotless_name_accepted_witness :
    supported_input_format "mov".toList = true ∧
    output_file_of "mov".toList = ".MP4".toList :=
  dotless_name_accepted "mov".toList (by decide) (by decide)

theorem files_remove_le {fs : FS} {x p : Str}
    (h : (fs.remove x).files p = true) : fs.files p = true := by
  rw [FS.remove] at h
  dsimp only at h
  split at h
  · exact absurd h (by simp)
  · exact h

/-- C1 counterexample: with `dry_run = true`, `force = false`,
`erase = true`, and both `a.mov` and its output `a.MP4` present, the
lifecycle still deletes the input file `a.mov` — refuting the claim
that a dry run never deletes an input file regardless of force/erase. -/
theorem dry_run_deletes_input_counterexample :
    fsBoth.files "a.mov".toList = true ∧
    (transform_video fsBoth "a.mov".toList true false true).1.files
      "a.mov".toList = false := by
  constructor <;> decide

/-- C1 (amended): with `dry_run = true` the lifecycle never invokes the
transcoder and creates no file (any path holding a file afterwards held
one before); but lifecycle deletions are not suppressed — in
particular, when the output exists, force unset and erase set, the
input file is still deleted. -/
theorem dry_run_no_create_no_transcode (fs : FS) (input : Str)
    (force erase : Bool) :
    countTranscodes (transform_video fs input true force erase).2 = 0 ∧
    (∀ p, (transform_video fs input true force erase).1.files p = true →
      fs.files p = true) ∧
    (fs.files input = true → fs.files (output_file_of input) = true →
      (transform_video fs input true false true).1.files input = false) := by
  refine ⟨?_, ?_, ?_⟩
  · cases hin : fs.files input with
    | false => simp [transform_video, hin, countTranscodes, Event.isTranscode]
    | true =>
      cases hout : fs.files (output_file_of input) with
      | false =>
        simp [transform_video, transform_video_tail, hin, hout,
              countTranscodes, Event.isTranscode]
      | true =>
        cases force <;> cases erase <;>
          simp [transform_video, transform_video_tail, hin, hout,
                countTranscodes, Event.isTranscode]
  · intro p hp
    cases hin : fs.files input with
    | false => simpa [transform_video, hin] using hp
    | true =>
      cases hout : fs.files (output_file_of input) with
      | false =>
        simpa [transform_video, transform_video_tail, hin, hout] using hp
      | true =>
        cases force with
        | true =>
          simp only [transform_video, transform_video_tail, hin, hout] at hp
          exact files_remove_le (by simpa using hp)
        | false =>
          cases erase with
          | true =>
            simp only [transform_video, hin, hout] at hp
            exact files_remove_le (by simpa using hp)
          | false => simpa [transform_video, hin, hout] using hp
  · intro hin hout
    simp [transform_video, hin, hout, FS.remove]

/-- C1 amended-claim witness: concrete dry run with erase set — no
transcode happens, and the input is indeed deleted. -/
theorem dry_run_no_create_no_transcode_witness :
    countTranscodes (transform_video fsBoth "a.mov".toList true false true).2 = 0 ∧
    (transform_video fsBoth "a.mov".toList true false true).1.files
      "a.mov".toList = false :=
  ⟨(dry_run_no_create_no_transcode fsBoth "a.mov".toList false true).1,
   (dry_run_no_create_no_transcode fsBoth "a.mov".toList false true).2.2
     (by decide) (by decide)⟩

/-- C2: when the output file already exists, `force` deletes it and
proceeds to transcode (regenerating the output), whatever `erase` is:
the trace is exactly the force-branch trace — removal of the output
followed by the transcoder invocation and tag write — and the output
exists afterwards. -/
theorem force_overwrites_existing_output (fs : FS) (input : Str) (erase : Bool)
    (hin : fs.files input = true)
    (hout : fs.files (output_file_of input) = true) :
    (transform_video fs input false true erase).2 =
      [Event.log .info input, Event.readMetadata input, Event.log .debug input,
       Event.log .info (output_file_of input),
       Event.removeFile (output_file_of input),
       Event.invokeTranscoder input (output_file_of input),
       Event.setTags (output_file_of input) (extract_datetags (fs.meta input)),
       Event.log .debug (output_file_of input ++ "_original".toList),
       Event.removeFile (output_file_of input ++ "_original".toList),
       Event.log .info (output_file_of input)] ∧
    (transform_video fs input false true erase).1.files
      (output_file_of input) = true := by
  have hb : ¬(output_file_of input = output_file_of input ++ "_original".toList) :=
    fun h => append_original_ne (output_file_of input) h.symm
  constructor
  · simp [transform_video, transform_video_tail, hin, hout, FS.create, FS.remove]
  · simp [transform_video, transform_video_tail, hin, hout, FS.create, FS.remove, hb]

/-- C2 witness: force over existing `a.MP4` with erase also set. -/
theorem force_overwrites_existing_output_witness :
    fsBoth.files "a.mov".toList = true ∧
    (transform_video fsBoth "a.mov".toList false true true).1.files
      (output_file_of "a.mov".toList) = true :=
  ⟨by decide,
   (force_overwrites_existing_output fsBoth "a.mov".toList true
     (by decide) (by decide)).2⟩

/-- C3: with the output existing, force unset and erase set, the
lifecycle deletes the input file, invokes no transcoder, leaves the
output file untouched, and terminates processing of the file (the trace
ends at the input removal).  The filter hypothesis is the Dispatcher's
precondition for invoking the lifecycle; it guarantees the input and
output paths differ. -/
theorem erase_deletes_input_only (fs : FS) (input : Str) (dry_run : Bool)
    (hsup : supported_input_format input = true)
    (hin : fs.files input = true)
    (hout : fs.files (output_file_of input) = true) :
    (transform_video fs input dry_run false true).2 =
      [Event.log .info input, Event.readMetadata input, Event.log .debug input,
       Event.log .warning input, Event.removeFile input] ∧
    (transform_video fs input dry_run false true).1.files input = false ∧
    (transform_video fs input dry_run false true).1.files
      (output_file_of input) = fs.files (output_file_of input) ∧
    countTranscodes (transform_video fs input dry_run false true).2 = 0 := by
  have hne : ¬(output_file_of input = input) := output_ne_of_supported hsup
  refine ⟨?_, ?_, ?_, ?_⟩ <;>
    simp [transform_video, hin, hout, FS.remove, hne,
          countTranscodes, Event.isTranscode]

/-- C3 witness: erasing `a.mov` when `a.MP4` already exists. -/
theorem erase_deletes_input_only_witness :
    supported_input_format "a.mov".toList = true ∧
    (transform_video fsBoth "a.mov".toList false false true).1.files
      "a.mov".toList = false ∧
    (transform_video fsBoth "a.mov".toList false false true).1.files
      (output_file_of "a.mov".toList) =
      fsBoth.files (output_file_of "a.mov".toList) :=
  ⟨by decide,
   (erase_deletes_input_only fsBoth "a.mov".toList false
     (by decide) (by decide) (by decide)).2.1,
   (erase_deletes_input_only fsBoth "a.mov".toList false
     (by decide) (by decide) (by decide)).2.2.1⟩

/-- C6: in recursive mode, a path-argument count other than one, or a
single path that is not a directory, produces only a configuration
error log, with the file system unchanged and no file dispatched; a
single existing directory leads to the walk being dispatched. -/
theorem recursive_mode_validation (fs : FS) (isdir : Str → Bool)
    (walk : Str → List Str) (dryrun force erase : Bool)
    (input_files : List Str) :
    (input_files.length ≠ 1 →
      main_tf fs isdir walk dryrun force true erase input_files =
        (fs, [Event.log .error []])) ∧
    (∀ root, input_files = [root] → isdir root = false →
      main_tf fs isdir walk dryrun force true erase input_files =
        (fs, [Event.log .error root])) ∧
    (∀ root, input_files = [root] → isdir root = true →
      main_tf fs isdir walk dryrun force true erase input_files =
        ((dispatch_transformation fs (walk root) dryrun force erase).1,
         Event.log .info root ::
           (dispatch_transformation fs (walk root) dryrun force erase).2)) := by
  refine ⟨?_, ?_, ?_⟩
  · intro h
    simp [main_tf, h]
  · intro root hr hd
    subst hr
    simp [main_tf, hd]
  · intro root hr hd
    subst hr
    simp [main_tf, hd]

/-- C6 witness: recursive mode with zero path arguments. -/
theorem recursive_mode_validation_witness :
    ([] : List Str).length ≠ 1 ∧
    main_tf fsEmpty (fun _ => false) (fun _ => []) false false true false [] =
      (fsEmpty, [Event.log .error []]) :=
  ⟨by decide,
   (recursive_mode_validation fsEmpty (fun _ => false) (fun _ => [])
     false false false []).1 (by decide)⟩

/-- C7: a dispatched file whose path does not exist is logged as an
error and processing of it aborts with no metadata read, no deletion
and no transcode (the state is returned unchanged, the trace holds only
the two log lines), and the dispatch loop continues: the state after
dispatching the whole list equals the state after dispatching the list
without the missing file. -/
theorem missing_input_aborts (fs : FS) (file : Str) (rest : List Str)
    (dryrun force erase : Bool) (h : fs.files file = false) :
    transform_video fs file dryrun force erase =
      (fs, [Event.log .info file, Event.log .error file]) ∧
    (dispatch_transformation fs (file :: rest) dryrun force erase).1 =
      (dispatch_transformation fs rest dryrun force erase).1 := by
  have h1 : transform_video fs file dryrun force erase =
      (fs, [Event.log .info file, Event.log .error file]) := by
    simp [transform_video, h]
  refine ⟨h1, ?_⟩
  by_cases hs : supported_input_format file = true
  · simp [dispatch_transformation, hs, h1]
  · simp [dispatch_transformation, hs]

/-- C7 witness: dispatching a missing `a.mov`. -/
theorem missing_input_aborts_witness :
    fsEmpty.files "a.mov".toList = false ∧
    transform_video fsEmpty "a.mov".toList false false false =
      (fsEmpty, [Event.log .info "a.mov".toList,
                 Event.log .error "a.mov".toList]) :=
  ⟨by decide,
   (missing_input_aborts fsEmpty "a.mov".toList [] false false false
     (by decide)).1⟩

/-- C9: whenever the input file exists, the metadata read (producing
the Date Tag Set) is the second event of the trace, right after the
initial info log — hence before any file removal and any transcoder
invocation — for every combination of dry_run, force and erase,
including when the output already exists and no transcode follows. -/
theorem metadata_read_before_destructive (fs : FS) (input : Str)
    (dry_run force erase : Bool) (hin : fs.files input = true) :
    ∃ tail, (transform_video fs input dry_run force erase).2 =
      Event.log .info input :: Event.readMetadata input :: tail := by
  cases hout : fs.files (output_file_of input) with
  | true =>
    cases force with
    | true =>
      obtain ⟨s, hs⟩ := transform_video_tail_trace
        (fs.remove (output_file_of input)) input (output_file_of input)
        (extract_datetags (fs.meta input)) dry_run
        [Event.log .info input, Event.readMetadata input, Event.log .debug input,
         Event.log .info (output_file_of input),
         Event.removeFile (output_file_of input)]
      refine ⟨Event.log .debug input :: Event.log .info (output_file_of input) ::
        Event.removeFile (output_file_of input) :: s, ?_⟩
      simpa [transform_video, hin, hout] using hs
    | false =>
      cases erase with
      | true =>
        refine ⟨[Event.log .debug input, Event.log .warning input,
                 Event.removeFile input], ?_⟩
        simp [transform_video, hin, hout]
      | false =>
        refine ⟨[Event.log .debug input,
                 Event.log .warning (output_file_of input)], ?_⟩
        simp [transform_video, hin, hout]
  | false =>
    obtain ⟨s, hs⟩ := transform_video_tail_trace fs input (output_file_of input)
      (extract_datetags (fs.meta input)) dry_run
      [Event.log .info input, Event.readMetadata input, Event.log .debug input]
    refine ⟨Event.log .debug input :: s, ?_⟩
    simpa [transform_video, hin, hout] using hs

/-- C9 witness: dry-run skip over existing files still reads metadata
first. -/
theorem metadata_read_before_destructive_witness :
    fsBoth.files "a.mov".toList = true ∧
    ∃ tail, (transform_video fsBoth "a.mov".toList true false false).2 =
      Event.log .info "a.mov".toList ::
        Event.readMetadata "a.mov".toList :: tail :=
  ⟨by decide,
   metadata_read_before_destructive fsBoth "a.mov".toList true false false
     (by decide)⟩
